import Mathlib

/-!
Shallow embedding of the FastSLAM particle filter in `src/SLAM/fast_slam.py`,
together with theorems settling the specification claims about it.

Floating-point numbers of the source are modelled as real numbers; the
`while` loops of `normalize` become well-founded recursion; the random
draws used by `predict` (process noise) and `resample` (uniform draws) are
passed in explicitly as parameters.
-/

open Real

noncomputable section

namespace FastSlam

open Classical in
/-- First loop of `normalize`: `while angle > math.pi: angle -= 2 * math.pi`. -/
def normLoop1 (angle : ℝ) : ℝ :=
  if Real.pi < angle then normLoop1 (angle - 2 * Real.pi) else angle
termination_by (⌈(angle - Real.pi) / (2 * Real.pi)⌉).toNat
decreasing_by
  have hpi : (0 : ℝ) < 2 * Real.pi := by positivity
  have harg : (angle - 2 * Real.pi - Real.pi) / (2 * Real.pi)
      = (angle - Real.pi) / (2 * Real.pi) - 1 := by
    field_simp
    ring
  have hpos : (0 : ℝ) < (angle - Real.pi) / (2 * Real.pi) :=
    div_pos (by linarith) hpi
  have hceil : 0 < ⌈(angle - Real.pi) / (2 * Real.pi)⌉ := Int.ceil_pos.mpr hpos
  have : ⌈(angle - 2 * Real.pi - Real.pi) / (2 * Real.pi)⌉
      = ⌈(angle - Real.pi) / (2 * Real.pi)⌉ - 1 := by
    rw [harg]
    exact_mod_cast Int.ceil_sub_int ((angle - Real.pi) / (2 * Real.pi)) 1
  simp only [this]
  omega

open Classical in
/-- Second loop of `normalize`: `while angle < -math.pi: angle += math.pi * 2`. -/
def normLoop2 (angle : ℝ) : ℝ :=
  if angle < -Real.pi then normLoop2 (angle + Real.pi * 2) else angle
termination_by (⌈(-Real.pi - angle) / (2 * Real.pi)⌉).toNat
decreasing_by
  have hpi : (0 : ℝ) < 2 * Real.pi := by positivity
  have harg : (-Real.pi - (angle + Real.pi * 2)) / (2 * Real.pi)
      = (-Real.pi - angle) / (2 * Real.pi) - 1 := by
    field_simp
    ring
  have hpos : (0 : ℝ) < (-Real.pi - angle) / (2 * Real.pi) :=
    div_pos (by linarith) hpi
  have hceil : 0 < ⌈(-Real.pi - angle) / (2 * Real.pi)⌉ := Int.ceil_pos.mpr hpos
  have : ⌈(-Real.pi - (angle + Real.pi * 2)) / (2 * Real.pi)⌉
      = ⌈(-Real.pi - angle) / (2 * Real.pi)⌉ - 1 := by
    rw [harg]
    exact_mod_cast Int.ceil_sub_int ((-Real.pi - angle) / (2 * Real.pi)) 1
  simp only [this]
  omega

/-- `normalize(angle)` from the source: run the two wrap-around loops in order. -/
def normalize (angle : ℝ) : ℝ := normLoop2 (normLoop1 angle)

theorem normLoop1_of_not_gt {a : ℝ} (h : ¬ Real.pi < a) : normLoop1 a = a := by
  rw [normLoop1, if_neg h]

theorem normLoop2_of_not_lt {a : ℝ} (h : ¬ a < -Real.pi) : normLoop2 a = a := by
  rw [normLoop2, if_neg h]

theorem normLoop1_le (a : ℝ) : normLoop1 a ≤ Real.pi := by
  by_cases h : Real.pi < a
  · rw [normLoop1, if_pos h]
    exact normLoop1_le (a - 2 * Real.pi)
  · rw [normLoop1_of_not_gt h]
    exact le_of_not_lt h
termination_by (⌈(a - Real.pi) / (2 * Real.pi)⌉).toNat
decreasing_by
  have hpi : (0 : ℝ) < 2 * Real.pi := by positivity
  have harg : (a - 2 * Real.pi - Real.pi) / (2 * Real.pi)
      = (a - Real.pi) / (2 * Real.pi) - 1 := by
    field_simp
    ring
  have hpos : (0 : ℝ) < (a - Real.pi) / (2 * Real.pi) :=
    div_pos (by linarith) hpi
  have hceil : 0 < ⌈(a - Real.pi) / (2 * Real.pi)⌉ := Int.ceil_pos.mpr hpos
  have : ⌈(a - 2 * Real.pi - Real.pi) / (2 * Real.pi)⌉
      = ⌈(a - Real.pi) / (2 * Real.pi)⌉ - 1 := by
    rw [harg]
    exact_mod_cast Int.ceil_sub_int ((a - Real.pi) / (2 * Real.pi)) 1
  simp only [this]
  omega

theorem normLoop2_ge (a : ℝ) : -Real.pi ≤ normLoop2 a := by
  by_cases h : a < -Real.pi
  · rw [normLoop2, if_pos h]
    exact normLoop2_ge (a + Real.pi * 2)
  · rw [normLoop2_of_not_lt h]
    exact le_of_not_lt h
termination_by (⌈(-Real.pi - a) / (2 * Real.pi)⌉).toNat
decreasing_by
  have hpi : (0 : ℝ) < 2 * Real.pi := by positivity
  have harg : (-Real.pi - (a + Real.pi * 2)) / (2 * Real.pi)
      = (-Real.pi - a) / (2 * Real.pi) - 1 := by
    field_simp
    ring
  have hpos : (0 : ℝ) < (-Real.pi - a) / (2 * Real.pi) :=
    div_pos (by linarith) hpi
  have hceil : 0 < ⌈(-Real.pi - a) / (2 * Real.pi)⌉ := Int.ceil_pos.mpr hpos
  have : ⌈(-Real.pi - (a + Real.pi * 2)) / (2 * Real.pi)⌉
      = ⌈(-Real.pi - a) / (2 * Real.pi)⌉ - 1 := by
    rw [harg]
    exact_mod_cast Int.ceil_sub_int ((-Real.pi - a) / (2 * Real.pi)) 1
  simp only [this]
  omega

theorem normLoop2_le {a : ℝ} (h : a ≤ Real.pi) : normLoop2 a ≤ Real.pi := by
  by_cases hlt : a < -Real.pi
  · rw [normLoop2, if_pos hlt]
    have hpi : (0 : ℝ) < Real.pi := Real.pi_pos
    exact normLoop2_le (by linarith)
  · rw [normLoop2_of_not_lt hlt]
    exact h
termination_by (⌈(-Real.pi - a) / (2 * Real.pi)⌉).toNat
decreasing_by
  have hpi : (0 : ℝ) < 2 * Real.pi := by positivity
  have harg : (-Real.pi - (a + Real.pi * 2)) / (2 * Real.pi)
      = (-Real.pi - a) / (2 * Real.pi) - 1 := by
    field_simp
    ring
  have hpos : (0 : ℝ) < (-Real.pi - a) / (2 * Real.pi) :=
    div_pos (by linarith) hpi
  have hceil : 0 < ⌈(-Real.pi - a) / (2 * Real.pi)⌉ := Int.ceil_pos.mpr hpos
  have : ⌈(-Real.pi - (a + Real.pi * 2)) / (2 * Real.pi)⌉
      = ⌈(-Real.pi - a) / (2 * Real.pi)⌉ - 1 := by
    rw [harg]
    exact_mod_cast Int.ceil_sub_int ((-Real.pi - a) / (2 * Real.pi)) 1
  simp only [this]
  omega

/-- C6 (counterexample): the claim states that `normalize θ` always lies in
the half-open interval (-π, π].  At θ = -π neither loop guard fires, so the
source returns -π itself, which is not in (-π, π]. -/
theorem C6_normalize_counterexample :
    normalize (-Real.pi) = -Real.pi ∧
      normalize (-Real.pi) ∉ Set.Ioc (-Real.pi) Real.pi := by
  have hpi : (0 : ℝ) < Real.pi := Real.pi_pos
  have h1 : normLoop1 (-Real.pi) = -Real.pi :=
    normLoop1_of_not_gt (by linarith)
  have h2 : normLoop2 (-Real.pi) = -Real.pi :=
    normLoop2_of_not_lt (lt_irrefl _)
  have h : normalize (-Real.pi) = -Real.pi := by
    rw [normalize, h1, h2]
  refine ⟨h, ?_⟩
  rw [h]
  simp [Set.mem_Ioc]

/-- C6 (amended): for every real angle θ, `normalize θ` lies in the closed
interval [-π, π] (the endpoint -π is attained, so the interval cannot be
sharpened to the claimed (-π, π]). -/
theorem C6_normalize_range (theta : ℝ) :
    normalize theta ∈ Set.Icc (-Real.pi) Real.pi := by
  constructor
  · exact normLoop2_ge (normLoop1 theta)
  · exact normLoop2_le (normLoop1_le theta)

/-! ## Data model

`Particle.__init__` builds `X = [x, y, yaw, l1_x, l1_y, l2_x, l2_y, ...]`
(`RS = 3` pose entries in this program, `LS = 2` entries per landmark) and
`LP`, a `(landmark_number * LS) × LS` matrix of stacked 2×2 landmark
covariance blocks.  We model `X` as a list of reals and `LP` as the list of
its 2×2 blocks; `np.matrix` values of fixed shape 2×2 become
`Matrix (Fin 2) (Fin 2) ℝ`. -/

abbrev Mat2 := Matrix (Fin 2) (Fin 2) ℝ

abbrev Vec2 := Fin 2 → ℝ

/-- One observation row `[d, theta, label]` of the batch `z`. -/
structure Obs where
  d : ℝ
  theta : ℝ
  lm_id : ℕ

/-- The particle: pose-plus-landmark state `X`, stacked landmark covariance
blocks `LP`, and the importance weight. -/
@[ext]
structure Particle where
  n_landmark : ℕ
  X : List ℝ
  LP : List Mat2
  weight : ℝ

instance : Inhabited Particle := ⟨⟨0, [], [], 0⟩⟩

/-- `math.atan2 dy dx`, modelled as the argument of the complex number
`dx + dy·i`. -/
def atan2 (dy dx : ℝ) : ℝ := Complex.arg ⟨dx, dy⟩

namespace Particle

/-- `_get_nth_landmark_state`: the 2-vector stored at rows
`RS + n*LS .. RS + n*LS + 1` of `X`. -/
def lm_state (p : Particle) (n : ℕ) : Vec2 :=
  ![p.X.getD (3 + 2 * n) 0, p.X.getD (3 + 2 * n + 1) 0]

/-- `_get_nth_landmark_covariance`: the 2×2 block at rows
`n*LS .. n*LS + 1` of `LP`. -/
def lm_cov (p : Particle) (n : ℕ) : Mat2 :=
  p.LP.getD n 0

/-- `make_copy`: a fresh particle holding copies of `X`, `LP` and the
weight. -/
def make_copy (p : Particle) : Particle :=
  ⟨p.n_landmark, p.X, p.LP, p.weight⟩

/-- `_move_motion`: apply the unicycle model `F⬝X + B⬝u` to the pose block
and re-normalize the heading. -/
def move_motion (p : Particle) (u : Vec2) (dt : ℝ) : Particle :=
  let x := p.X.getD 0 0
  let y := p.X.getD 1 0
  let yaw := p.X.getD 2 0
  { p with
    X := ((p.X.set 0 (x + dt * Real.cos yaw * u 0)).set
            1 (y + dt * Real.sin yaw * u 0)).set
            2 (normalize (yaw + dt * u 1)) }

/-- `predict`: perturb the control with `Q ⬝ randn` (the standard-normal
draw is passed in as `noise`) and run the motion model. -/
def predict (p : Particle) (u : Vec2) (Q : Mat2) (dt : ℝ) (noise : Vec2) :
    Particle :=
  p.move_motion (fun i => u i + Q.mulVec noise i) dt

/-- `_add_landmark`: project the polar observation to Cartesian from the
current pose, store it as the landmark mean, and initialize the covariance
as `G_r ⬝ R ⬝ G_rᵀ`. -/
def add_landmark (p : Particle) (z : Obs) (R : Mat2) : Particle :=
  let xl0 := p.X.getD 0 0 + z.d * Real.cos z.theta
  let xl1 := p.X.getD 1 0 + z.d * Real.sin z.theta
  let G_r : Mat2 := !![Real.cos z.theta, -z.d * Real.sin z.theta;
                       Real.sin z.theta, z.d * Real.cos z.theta]
  { p with
    X := (p.X.set (3 + 2 * z.lm_id) xl0).set (3 + 2 * z.lm_id + 1) xl1,
    LP := p.LP.set z.lm_id (G_r * R * G_r.transpose) }

open Classical in
/-- `_compute_weight`: multiply the weight by the Gaussian density of the
raw Cartesian residual; a singular landmark covariance (where
`np.linalg.inv` raises `LinAlgError`) leaves the particle untouched. -/
def compute_weight (p : Particle) (z : Obs) : Particle :=
  let xl : Vec2 := ![p.X.getD 0 0 + z.d * Real.cos z.theta,
                     p.X.getD 1 0 + z.d * Real.sin z.theta]
  let residual : Vec2 := xl - p.lm_state z.lm_id
  let P := p.lm_cov z.lm_id
  if P.det = 0 then p
  else
    let num := Real.exp (-0.5 * Matrix.dotProduct residual (P⁻¹.mulVec residual))
    let den := 2.0 * Real.pi * Real.sqrt P.det
    { p with weight := p.weight * num / den }

/-- `dx` of `_calc_innovation`: landmark-mean x minus pose x. -/
def lm_dx (p : Particle) (n : ℕ) : ℝ := p.lm_state n 0 - p.X.getD 0 0

/-- `dy` of `_calc_innovation`: landmark-mean y minus pose y. -/
def lm_dy (p : Particle) (n : ℕ) : ℝ := p.lm_state n 1 - p.X.getD 1 0

/-- `square_distance` of `_calc_innovation`. -/
def square_distance (p : Particle) (n : ℕ) : ℝ :=
  p.lm_dx n * p.lm_dx n + p.lm_dy n * p.lm_dy n

/-- `distance` (the value `z[0,0] = math.sqrt(square_distance)`) used as
divisor by `_observation_jacob`. -/
def distance (p : Particle) (n : ℕ) : ℝ := Real.sqrt (p.square_distance n)

end Particle

/-- The `Hx` matrix built by `_observation_jacob` — two rows of FOUR
entries each, as in the source (`np.matrix` takes the shape from the row
lists). -/
def observation_jacob_Hx (square_distance distance dx dy : ℝ) :
    List (List ℝ) :=
  [[-dx / distance, -dy / distance, 0, 0],
   [dy / square_distance, -dx / square_distance, 0, 0]]

/-- The `Hlm` matrix built by `_observation_jacob`. -/
def observation_jacob_Hlm (square_distance distance dx dy : ℝ) : Mat2 :=
  !![dx / distance, dy / distance;
     -dy / square_distance, dx / square_distance]

/-- Result record of `_calc_innovation`. -/
structure Innovation where
  residual : Vec2
  Hx : List (List ℝ)
  Hlm : Mat2
  Slm : Mat2

namespace Particle

/-- `_calc_innovation`: range/bearing residual against the stored landmark
mean (bearing normalized), the two observation Jacobians, and the
innovation covariance `Slm = Hlm ⬝ P ⬝ Hlmᵀ + R`. -/
def calc_innovation (p : Particle) (n : ℕ) (z_observed : Obs) (R : Mat2) :
    Innovation :=
  let dx := p.lm_dx n
  let dy := p.lm_dy n
  let sq := p.square_distance n
  let dist := p.distance n
  let Hlm := observation_jacob_Hlm sq dist dx dy
  { residual := ![z_observed.d - dist,
                  normalize (z_observed.theta - atan2 dy dx)]
    Hx := observation_jacob_Hx sq dist dx dy
    Hlm := Hlm
    Slm := Hlm * p.lm_cov n * Hlm.transpose + R }

/-- The TRACKED branch of `update_one_landmark` after `_compute_weight`:
Kalman gain, mean update and covariance update for landmark `z.lm_id`. -/
def ekf_correct (p : Particle) (z : Obs) (R : Mat2) : Particle :=
  let inn := p.calc_innovation z.lm_id z R
  let K := p.lm_cov z.lm_id * inn.Hlm.transpose * inn.Slm⁻¹
  { p with
    X := (p.X.set (3 + 2 * z.lm_id)
            (p.lm_state z.lm_id 0 + K.mulVec inn.residual 0)).set
            (3 + 2 * z.lm_id + 1)
            (p.lm_state z.lm_id 1 + K.mulVec inn.residual 1),
    LP := p.LP.set z.lm_id
            (p.lm_cov z.lm_id - K * inn.Hlm * p.lm_cov z.lm_id) }

open Classical in
/-- `update_one_landmark`: dispatch on `abs(X[lm_id*LS + RS]) < 0.01` —
the absolute value of the FIRST component of the stored landmark mean. -/
def update_one_landmark (p : Particle) (z : Obs) (R : Mat2) : Particle :=
  if |p.X.getD (3 + 2 * z.lm_id) 0| < 0.01 then p.add_landmark z R
  else (p.compute_weight z).ekf_correct z R

/-- `update`: reset the weight to 1, then fold `update_one_landmark` over
the observation batch in order. -/
def update (p : Particle) (z : List Obs) (R : Mat2) : Particle :=
  z.foldl (fun q obs => q.update_one_landmark obs R) { p with weight := 1 }

end Particle

open Classical in
/-- `normalize_particles`: scale every weight by the reciprocal total; a
zero total (where Python raises `ZeroDivisionError`) falls back to the
uniform weight `1/count`. -/
def normalize_particles (ps : List Particle) : List Particle :=
  let ws := (ps.map Particle.weight).sum
  if ws = 0 then ps.map (fun p => { p with weight := 1 / (ps.length : ℝ) })
  else ps.map (fun p => { p with weight := p.weight * (1 / ws) })

/-- `Neff = 1. / ((weights * weights.T)[0,0] + 1e-30)` computed inside
`resample`. -/
def Neff (ps : List Particle) : ℝ :=
  1 / ((ps.map (fun p => p.weight * p.weight)).sum + 1e-30)

open Classical in
/-- The index scan `ind = 0; while wcum[0, ind] < r: ind += 1` of
`resample`. -/
def select_index (wcum : List ℝ) (r : ℝ) : ℕ :=
  match wcum with
  | [] => 0
  | c :: rest => if c < r then select_index rest r + 1 else 0

/-- The cumulative weight list `np.cumsum(weights)` with the final entry
forced to exactly 1 (`wcum[0, -1] = 1`). -/
def wcum_of (ps : List Particle) : List ℝ :=
  (((ps.map Particle.weight).scanl (fun a b => a + b) 0).tail).set
    (ps.length - 1) 1

open Classical in
/-- `resample`: normalize, gate on the effective sample size, and only in
the degenerate case replace the set by copies selected through the
cumulative weights, then normalize again.  The `random.uniform(0, 1.0)`
draws are passed in as the stream `draws`. -/
def resample (draws : ℕ → ℝ) (particles : List Particle) : List Particle :=
  let particles := normalize_particles particles
  if Neff particles < (particles.length : ℝ) / 2 then
    let wcum := wcum_of particles
    let indexes := (List.range particles.length).map
      (fun i => select_index wcum (draws i))
    let new_particles := indexes.map
      (fun ind => (particles.getD ind default).make_copy)
    normalize_particles new_particles
  else particles

open Classical in
/-- The dispatch of `update_one_landmark` as the specification words it, for
refinement comparison with the source definition: here UNINITIALIZED means
the Euclidean magnitude of the stored mean is below the 0.01 threshold,
whereas the source tests only the first component. -/
def Particle.update_one_landmark_claimed (p : Particle) (z : Obs) (R : Mat2) :
    Particle :=
  if Real.sqrt (p.lm_state z.lm_id 0 ^ 2 + p.lm_state z.lm_id 1 ^ 2) < 0.01
  then p.add_landmark z R
  else (p.compute_weight z).ekf_correct z R

/-! ## Concrete sample data used to instantiate the theorems -/

/-- A range-1, bearing-0 observation of landmark 0. -/
def exZ : Obs := ⟨1, 0, 0⟩

/-- Identity measurement noise. -/
def exR : Mat2 := 1

/-- One landmark, stored mean (0, 5) (first component zero), identity
covariance, weight 1, pose at the origin. -/
def exP5 : Particle := ⟨1, [0, 0, 0, 0, 5], [1], 1⟩

/-- One landmark, stored mean (0, 0): uninitialized. -/
def exP0 : Particle := ⟨1, [0, 0, 0, 0, 0], [1], 1⟩

/-- One landmark, stored mean (1, 0): tracked, at distance 1 from the
pose. -/
def exPC3 : Particle := ⟨1, [0, 0, 0, 1, 0], [1], 1⟩

/-- One landmark whose stored mean (2, 3) coincides with the pose
position. -/
def exPC10 : Particle := ⟨1, [2, 3, 0, 2, 3], [1], 1⟩

/-- A landmark-free particle of weight 1. -/
def exW1 : Particle := ⟨0, [], [], 1⟩

/-- A landmark-free particle of weight 0. -/
def exW0 : Particle := ⟨0, [], [], 0⟩

/-- Two particles of weight 2 each: positive total weight. -/
def exA : List Particle := [⟨0, [], [], 2⟩, ⟨0, [], [], 2⟩]

/-- A single particle of weight 0: degenerate zero total weight. -/
def exB : List Particle := [exW0]

/-- A skewed three-particle set: weights 1, 0, 0. -/
def exSkew : List Particle := [exW1, exW0, exW0]

/-- A constant stream of uniform draws, all 1/2. -/
def exDraws : ℕ → ℝ := fun _ => 1 / 2

/-- A sample control input (v, ω) = (1, 0). -/
def exU : Vec2 := ![1, 0]

/-- A zero process-noise draw. -/
def exNoise : Vec2 := ![0, 0]

/-! ## Helper lemmas about list reads and writes -/

theorem getD_set_self {α : Type} {l : List α} {i : ℕ} {a d : α}
    (h : i < l.length) : (l.set i a).getD i d = a := by
  rw [List.getD_eq_getElem?_getD, List.getElem?_set_self h]
  rfl

theorem getD_set_ne {α : Type} {l : List α} {i j : ℕ} {a d : α}
    (h : i ≠ j) : (l.set i a).getD j d = l.getD j d := by
  rw [List.getD_eq_getElem?_getD, List.getElem?_set_ne h,
    ← List.getD_eq_getElem?_getD]

/-! ## Projection lemmas for the particle operations -/

theorem Particle.make_copy_eq (p : Particle) : p.make_copy = p := rfl

theorem Particle.add_landmark_weight (p : Particle) (z : Obs) (R : Mat2) :
    (p.add_landmark z R).weight = p.weight := rfl

theorem Particle.add_landmark_n (p : Particle) (z : Obs) (R : Mat2) :
    (p.add_landmark z R).n_landmark = p.n_landmark := rfl

theorem Particle.ekf_correct_weight (p : Particle) (z : Obs) (R : Mat2) :
    (p.ekf_correct z R).weight = p.weight := rfl

theorem Particle.compute_weight_X (p : Particle) (z : Obs) :
    (p.compute_weight z).X = p.X := by
  simp only [Particle.compute_weight]
  split <;> rfl

theorem Particle.compute_weight_LP (p : Particle) (z : Obs) :
    (p.compute_weight z).LP = p.LP := by
  simp only [Particle.compute_weight]
  split <;> rfl

theorem Particle.compute_weight_n (p : Particle) (z : Obs) :
    (p.compute_weight z).n_landmark = p.n_landmark := by
  simp only [Particle.compute_weight]
  split <;> rfl

theorem Particle.compute_weight_weight {p : Particle} {z : Obs}
    (hdet : (p.lm_cov z.lm_id).det ≠ 0) :
    (p.compute_weight z).weight =
      p.weight * Real.exp (-0.5 * Matrix.dotProduct
          (![p.X.getD 0 0 + z.d * Real.cos z.theta,
             p.X.getD 1 0 + z.d * Real.sin z.theta] - p.lm_state z.lm_id)
          ((p.lm_cov z.lm_id)⁻¹.mulVec
            (![p.X.getD 0 0 + z.d * Real.cos z.theta,
               p.X.getD 1 0 + z.d * Real.sin z.theta] - p.lm_state z.lm_id)))
        / (2.0 * Real.pi * Real.sqrt (p.lm_cov z.lm_id).det) := by
  simp only [Particle.compute_weight]
  rw [if_neg hdet]

theorem list_sum_map_mul_const (l : List Particle) (c : ℝ) :
    (l.map (fun p => p.weight * c)).sum = (l.map Particle.weight).sum * c := by
  induction l with
  | nil => simp
  | cons a t ih => simp [ih, add_mul]

/-- C9: when the total weight is nonzero, `normalize_particles` divides
every weight by the total (and the weights then sum to 1); when the total
weight is zero it falls back to the uniform weight `1/count`, so an
all-zero collapse is recovered locally. -/
theorem C9_normalize_particles (ps : List Particle) (_hne : ps ≠ []) :
    ((ps.map Particle.weight).sum ≠ 0 →
      (normalize_particles ps).map Particle.weight =
        ps.map (fun p => p.weight / (ps.map Particle.weight).sum) ∧
      ((normalize_particles ps).map Particle.weight).sum = 1) ∧
    ((ps.map Particle.weight).sum = 0 →
      ∀ q ∈ normalize_particles ps, q.weight = 1 / (ps.length : ℝ)) := by
  constructor
  · intro hws
    have hnp : normalize_particles ps =
        ps.map (fun p =>
          { p with weight := p.weight * (1 / (ps.map Particle.weight).sum) }) := by
      simp only [normalize_particles]
      rw [if_neg hws]
    constructor
    · rw [hnp, List.map_map]
      refine List.map_congr_left (fun p _ => ?_)
      show p.weight * (1 / (ps.map Particle.weight).sum) = _
      rw [mul_one_div]
    · rw [hnp, List.map_map]
      show (ps.map (fun p =>
        p.weight * (1 / (ps.map Particle.weight).sum))).sum = 1
      rw [list_sum_map_mul_const, mul_one_div, div_self hws]
  · intro hws q hq
    simp only [normalize_particles] at hq
    rw [if_pos hws] at hq
    rcases List.mem_map.mp hq with ⟨p, hp, rfl⟩
    rfl

/-- C9 witness: on two particles of weight 2 each, the weights become
2/4 and sum to 1; on a single particle of weight 0, the weight becomes
1/1. -/
theorem C9_witness :
    ((normalize_particles exA).map Particle.weight =
        exA.map (fun p => p.weight / (exA.map Particle.weight).sum) ∧
      ((normalize_particles exA).map Particle.weight).sum = 1) ∧
    (∀ q ∈ normalize_particles exB, q.weight = 1 / (exB.length : ℝ)) :=
  ⟨(C9_normalize_particles exA (by simp [exA])).1 (by norm_num [exA]),
   (C9_normalize_particles exB (by simp [exB])).2 (by norm_num [exB, exW0])⟩

/-- C10: `_calc_innovation` and `_observation_jacob` divide by `distance`
and `square_distance`; these divisors vanish exactly when the stored
landmark mean coincides with the particle position, and are nonzero
(indeed positive) whenever the two differ, so the correction is
well-defined only under that precondition. -/
theorem C10_innovation_divisors (p : Particle) (n : ℕ) (z : Obs) (R : Mat2) :
    ((p.calc_innovation n z R).Hlm =
      observation_jacob_Hlm (p.square_distance n) (p.distance n)
        (p.lm_dx n) (p.lm_dy n)) ∧
    ((p.lm_state n 0 = p.X.getD 0 0 ∧ p.lm_state n 1 = p.X.getD 1 0) →
      p.square_distance n = 0 ∧ p.distance n = 0) ∧
    (¬ (p.lm_state n 0 = p.X.getD 0 0 ∧ p.lm_state n 1 = p.X.getD 1 0) →
      0 < p.square_distance n ∧ 0 < p.distance n) := by
  refine ⟨rfl, ?_, ?_⟩
  · rintro ⟨h0, h1⟩
    have hdx : p.lm_dx n = 0 := by rw [Particle.lm_dx, h0, sub_self]
    have hdy : p.lm_dy n = 0 := by rw [Particle.lm_dy, h1, sub_self]
    have hsq : p.square_distance n = 0 := by
      rw [Particle.square_distance, hdx, hdy]
      ring
    exact ⟨hsq, by rw [Particle.distance, hsq, Real.sqrt_zero]⟩
  · intro hne
    have h : p.lm_dx n ≠ 0 ∨ p.lm_dy n ≠ 0 := by
      by_contra hc
      push_neg at hc
      refine hne ⟨?_, ?_⟩
      · have h1 := hc.1
        rw [Particle.lm_dx] at h1
        linarith
      · have h2 := hc.2
        rw [Particle.lm_dy] at h2
        linarith
    have hsq : 0 < p.square_distance n := by
      rw [Particle.square_distance]
      rcases h with h | h
      · nlinarith [mul_self_nonneg (p.lm_dy n), mul_self_pos.mpr h]
      · nlinarith [mul_self_nonneg (p.lm_dx n), mul_self_pos.mpr h]
    exact ⟨hsq, by rw [Particle.distance]; exact Real.sqrt_pos.mpr hsq⟩

/-- C10 witness: for the particle whose stored landmark mean (2, 3) equals
its position, both divisors are zero. -/
theorem C10_witness :
    exPC10.square_distance 0 = 0 ∧ exPC10.distance 0 = 0 :=
  (C10_innovation_divisors exPC10 0 exZ exR).2.1
    (by constructor <;> norm_num [exPC10, Particle.lm_state])

/-- C4: `_add_landmark` stores the Cartesian projection
`pose.xy + range·(cos bearing, sin bearing)` as the landmark mean, stores
`G_r ⬝ R ⬝ G_rᵀ` as its covariance, and leaves the weight unchanged. -/
theorem C4_add_landmark (p : Particle) (z : Obs) (R : Mat2)
    (hlen : p.X.length = 3 + 2 * p.n_landmark)
    (hLP : p.LP.length = p.n_landmark)
    (hid : z.lm_id < p.n_landmark) :
    (p.add_landmark z R).lm_state z.lm_id =
      ![p.X.getD 0 0 + z.d * Real.cos z.theta,
        p.X.getD 1 0 + z.d * Real.sin z.theta] ∧
    (p.add_landmark z R).lm_cov z.lm_id =
      !![Real.cos z.theta, -z.d * Real.sin z.theta;
         Real.sin z.theta, z.d * Real.cos z.theta] * R *
        (!![Real.cos z.theta, -z.d * Real.sin z.theta;
            Real.sin z.theta, z.d * Real.cos z.theta]).transpose ∧
    (p.add_landmark z R).weight = p.weight := by
  have hX : (p.add_landmark z R).X =
      (p.X.set (3 + 2 * z.lm_id) (p.X.getD 0 0 + z.d * Real.cos z.theta)).set
        (3 + 2 * z.lm_id + 1) (p.X.getD 1 0 + z.d * Real.sin z.theta) := rfl
  refine ⟨?_, ?_, rfl⟩
  · have h0 : (p.add_landmark z R).X.getD (3 + 2 * z.lm_id) 0 =
        p.X.getD 0 0 + z.d * Real.cos z.theta := by
      rw [hX, getD_set_ne (by omega), getD_set_self (by omega)]
    have h1 : (p.add_landmark z R).X.getD (3 + 2 * z.lm_id + 1) 0 =
        p.X.getD 1 0 + z.d * Real.sin z.theta := by
      rw [hX, getD_set_self (by rw [List.length_set]; omega)]
    funext i
    fin_cases i <;>
      simp only [Particle.lm_state, Matrix.cons_val_zero, Matrix.cons_val_one,
        Matrix.head_cons]
    · exact h0
    · exact h1
  · show (p.LP.set z.lm_id _).getD z.lm_id 0 = _
    rw [getD_set_self (by rw [hLP]; exact hid)]

/-- C4 witness: instantiated at the uninitialized sample particle and the
range-1, bearing-0 observation. -/
theorem C4_witness :
    (exP0.add_landmark exZ exR).lm_state exZ.lm_id =
      ![exP0.X.getD 0 0 + exZ.d * Real.cos exZ.theta,
        exP0.X.getD 1 0 + exZ.d * Real.sin exZ.theta] ∧
    (exP0.add_landmark exZ exR).lm_cov exZ.lm_id =
      !![Real.cos exZ.theta, -exZ.d * Real.sin exZ.theta;
         Real.sin exZ.theta, exZ.d * Real.cos exZ.theta] * exR *
        (!![Real.cos exZ.theta, -exZ.d * Real.sin exZ.theta;
            Real.sin exZ.theta, exZ.d * Real.cos exZ.theta]).transpose ∧
    (exP0.add_landmark exZ exR).weight = exP0.weight :=
  C4_add_landmark exP0 exZ exR (by norm_num [exP0]) (by norm_num [exP0])
    (by norm_num [exP0, exZ])

/-- C1 (counterexample): for the particle whose stored landmark mean is
(0, 5) — Euclidean magnitude 5, far above the 0.01 threshold — the source
still takes the `add_landmark` branch, because it tests only the first
component `X[lm_id*LS + RS]`; the literal reading of the claim (dispatch on
the mean's magnitude) computes a different particle. -/
theorem C1_counterexample :
    ¬ Real.sqrt (exP5.lm_state 0 0 ^ 2 + exP5.lm_state 0 1 ^ 2) < 0.01 ∧
    exP5.update_one_landmark exZ exR = exP5.add_landmark exZ exR ∧
    exP5.update_one_landmark exZ exR ≠
      exP5.update_one_landmark_claimed exZ exR := by
  have hstate : exP5.lm_state 0 = ![0, 5] := by
    funext i
    fin_cases i <;> simp [Particle.lm_state, exP5]
  have hmag : ¬ Real.sqrt (exP5.lm_state 0 0 ^ 2 + exP5.lm_state 0 1 ^ 2)
      < 0.01 := by
    rw [hstate]
    simp only [Matrix.cons_val_zero, Matrix.cons_val_one, Matrix.head_cons]
    rw [show (0:ℝ)^2 + 5^2 = 5^2 by norm_num,
      Real.sqrt_sq (by norm_num : (0:ℝ) ≤ 5)]
    norm_num
  have hcond : |exP5.X.getD (3 + 2 * exZ.lm_id) 0| < 0.01 := by
    norm_num [exP5, exZ]
  have hcode : exP5.update_one_landmark exZ exR = exP5.add_landmark exZ exR := by
    rw [Particle.update_one_landmark, if_pos hcond]
  refine ⟨hmag, hcode, ?_⟩
  have hwcode : (exP5.update_one_landmark exZ exR).weight = 1 := by
    rw [hcode, Particle.add_landmark_weight]
    rfl
  have hcov : exP5.lm_cov exZ.lm_id = 1 := by
    simp [Particle.lm_cov, exP5, exZ]
  have hdet : (exP5.lm_cov exZ.lm_id).det ≠ 0 := by
    rw [hcov, Matrix.det_one]
    norm_num
  have hres : (![exP5.X.getD 0 0 + exZ.d * Real.cos exZ.theta,
      exP5.X.getD 1 0 + exZ.d * Real.sin exZ.theta] - exP5.lm_state exZ.lm_id)
      = ![1, -5] := by
    funext i
    fin_cases i <;>
      simp [exP5, exZ, Particle.lm_state, Real.cos_zero, Real.sin_zero]
  have hwclaim : (exP5.update_one_landmark_claimed exZ exR).weight =
      1 * Real.exp (-0.5 * (26 : ℝ)) / (2.0 * Real.pi * Real.sqrt 1) := by
    rw [Particle.update_one_landmark_claimed]
    rw [show exZ.lm_id = 0 from rfl]
    rw [if_neg hmag, Particle.ekf_correct_weight]
    rw [Particle.compute_weight_weight hdet]
    rw [hres, hcov, Matrix.det_one, inv_one, Matrix.one_mulVec]
    have hdot : Matrix.dotProduct (![1, -5] : Vec2) ![1, -5] = 26 := by
      simp [Matrix.dotProduct, Fin.sum_univ_two]
      norm_num
    rw [hdot]
    show (exP5.weight : ℝ) * _ / _ = _
    norm_num [exP5]
  intro heq
  have hw := congrArg Particle.weight heq
  rw [hwcode, hwclaim] at hw
  have hpi : (3 : ℝ) < Real.pi := Real.pi_gt_three
  have hden : (1 : ℝ) < 2.0 * Real.pi * Real.sqrt 1 := by
    rw [Real.sqrt_one]
    norm_num
    linarith
  have hexp : Real.exp (-0.5 * (26 : ℝ)) < 1 :=
    Real.exp_lt_one_iff.mpr (by norm_num)
  have : 1 * Real.exp (-0.5 * (26 : ℝ)) / (2.0 * Real.pi * Real.sqrt 1) < 1 := by
    rw [one_mul, div_lt_one (by linarith)]
    linarith
  linarith [hw, this]

/-- C1 (amended): `update_one_landmark` transitions to TRACKED via
`add_landmark` (leaving the weight unchanged) exactly when the ABSOLUTE
VALUE OF THE FIRST COMPONENT of the stored mean is below the 0.01
threshold, and otherwise performs the weight computation followed by the
EKF correction. -/
theorem C1_dispatch (p : Particle) (z : Obs) (R : Mat2) :
    (|p.X.getD (3 + 2 * z.lm_id) 0| < 0.01 →
      p.update_one_landmark z R = p.add_landmark z R ∧
      (p.update_one_landmark z R).weight = p.weight) ∧
    (¬ |p.X.getD (3 + 2 * z.lm_id) 0| < 0.01 →
      p.update_one_landmark z R = (p.compute_weight z).ekf_correct z R) := by
  constructor
  · intro h
    have he : p.update_one_landmark z R = p.add_landmark z R := by
      rw [Particle.update_one_landmark, if_pos h]
    exact ⟨he, by rw [he, Particle.add_landmark_weight]⟩
  · intro h
    rw [Particle.update_one_landmark, if_neg h]

/-- C1 witness: the uninitialized sample particle (first stored component
0) takes the `add_landmark` branch and keeps its weight. -/
theorem C1_witness :
    exP0.update_one_landmark exZ exR = exP0.add_landmark exZ exR ∧
    (exP0.update_one_landmark exZ exR).weight = exP0.weight :=
  (C1_dispatch exP0 exZ exR).1 (by norm_num [exP0, exZ])

/-- C2: one `update` call resets the weight to 1 exactly once at the start
(the result is independent of the incoming weight) and then folds the
observations in order; each step multiplies the weight by the Gaussian
density of the raw Cartesian residual when the landmark is tracked (and its
covariance invertible), and leaves the weight untouched on first sight. -/
theorem C2_update_weight_cycle (p : Particle) (z : List Obs) (R : Mat2) :
    (∀ w, Particle.update { p with weight := w } z R = p.update z R) ∧
    (p.update z R =
      z.foldl (fun q obs => q.update_one_landmark obs R)
        { p with weight := 1 }) ∧
    (∀ (q : Particle) (obs : Obs),
      (|q.X.getD (3 + 2 * obs.lm_id) 0| < 0.01 →
        (q.update_one_landmark obs R).weight = q.weight) ∧
      (¬ |q.X.getD (3 + 2 * obs.lm_id) 0| < 0.01 →
        (q.lm_cov obs.lm_id).det ≠ 0 →
        (q.update_one_landmark obs R).weight =
          q.weight * Real.exp (-0.5 * Matrix.dotProduct
              (![q.X.getD 0 0 + obs.d * Real.cos obs.theta,
                 q.X.getD 1 0 + obs.d * Real.sin obs.theta]
                - q.lm_state obs.lm_id)
              ((q.lm_cov obs.lm_id)⁻¹.mulVec
                (![q.X.getD 0 0 + obs.d * Real.cos obs.theta,
                   q.X.getD 1 0 + obs.d * Real.sin obs.theta]
                  - q.lm_state obs.lm_id)))
            / (2.0 * Real.pi * Real.sqrt (q.lm_cov obs.lm_id).det))) := by
  refine ⟨fun w => rfl, rfl, fun q obs => ⟨?_, ?_⟩⟩
  · intro h
    rw [Particle.update_one_landmark, if_pos h, Particle.add_landmark_weight]
  · intro h hdet
    rw [Particle.update_one_landmark, if_neg h, Particle.ekf_correct_weight,
      Particle.compute_weight_weight hdet]

/-- C2 witness: one-observation batch on the uninitialized sample particle;
the single step is first-sight and keeps the weight. -/
theorem C2_witness :
    exP0.update [exZ] exR =
      [exZ].foldl (fun q obs => q.update_one_landmark obs exR)
        { exP0 with weight := 1 } ∧
    (exP0.update_one_landmark exZ exR).weight = exP0.weight :=
  ⟨(C2_update_weight_cycle exP0 [exZ] exR).2.1,
   ((C2_update_weight_cycle exP0 [exZ] exR).2.2 exP0 exZ).1
     (by norm_num [exP0, exZ])⟩

theorem Particle.update_one_landmark_X_frame (q : Particle) (obs : Obs)
    (R : Mat2) (i : ℕ) (hi : i < 3) :
    (q.update_one_landmark obs R).X.getD i 0 = q.X.getD i 0 := by
  rw [Particle.update_one_landmark]
  split
  · show ((q.X.set (3 + 2 * obs.lm_id) _).set
        (3 + 2 * obs.lm_id + 1) _).getD i 0 = _
    rw [getD_set_ne (by omega), getD_set_ne (by omega)]
  · show (((q.compute_weight obs).X.set (3 + 2 * obs.lm_id) _).set
        (3 + 2 * obs.lm_id + 1) _).getD i 0 = _
    rw [getD_set_ne (by omega), getD_set_ne (by omega),
      Particle.compute_weight_X]

/-- C5: `predict` mutates only the pose block (all landmark entries of the
augmented state, the covariances and the weight are unchanged), and
`update` never modifies the pose block. -/
theorem C5_frame (p : Particle) (u : Vec2) (Q : Mat2) (dt : ℝ) (noise : Vec2)
    (z : List Obs) (R : Mat2) :
    (∀ i, 3 ≤ i → (p.predict u Q dt noise).X.getD i 0 = p.X.getD i 0) ∧
    (p.predict u Q dt noise).LP = p.LP ∧
    (p.predict u Q dt noise).weight = p.weight ∧
    (∀ i, i < 3 → (p.update z R).X.getD i 0 = p.X.getD i 0) := by
  refine ⟨?_, rfl, rfl, ?_⟩
  · intro i hi
    show (((p.X.set 0 _).set 1 _).set 2 _).getD i 0 = _
    rw [getD_set_ne (by omega), getD_set_ne (by omega),
      getD_set_ne (by omega)]
  · intro i hi
    rw [Particle.update]
    have main : ∀ (zs : List Obs) (q : Particle),
        (zs.foldl (fun q obs => q.update_one_landmark obs R) q).X.getD i 0 =
          q.X.getD i 0 := by
      intro zs
      induction zs with
      | nil => intro q; rfl
      | cons a t ih =>
        intro q
        rw [List.foldl_cons, ih,
          Particle.update_one_landmark_X_frame q a R i hi]
    exact main z _

/-- C5 witness: a landmark entry survives `predict` and the pose x survives
`update`, at the sample inputs. -/
theorem C5_witness :
    (exP5.predict exU exR 1 exNoise).X.getD 3 0 = exP5.X.getD 3 0 ∧
    (exP0.update [exZ] exR).X.getD 0 0 = exP0.X.getD 0 0 :=
  ⟨(C5_frame exP5 exU exR 1 exNoise [] exR).1 3 (by norm_num),
   (C5_frame exP0 exU exR 1 exNoise [exZ] exR).2.2.2 0 (by norm_num)⟩

/-- C3 (counterexample): the claim describes `Hx` as a 2×3 matrix, but
`_observation_jacob` builds rows of FOUR entries (a vestigial zero column
for a removed velocity state).  At the tracked sample landmark
(dx = 1, dy = 0, distance = 1) the built `Hx` is
`[[-1, 0, 0, 0], [0, -1, 0, 0]]`, not the claimed 2×3 matrix. -/
theorem C3_counterexample :
    (exPC3.calc_innovation 0 exZ exR).Hx =
      [[-1, 0, 0, 0], [0, -1, 0, 0]] ∧
    (exPC3.calc_innovation 0 exZ exR).Hx ≠
      [[-1, 0, 0], [0, -1, 0]] := by
  have hdx : exPC3.lm_dx 0 = 1 := by
    norm_num [Particle.lm_dx, Particle.lm_state, exPC3]
  have hdy : exPC3.lm_dy 0 = 0 := by
    norm_num [Particle.lm_dy, Particle.lm_state, exPC3]
  have hsq : exPC3.square_distance 0 = 1 := by
    rw [Particle.square_distance, hdx, hdy]
    norm_num
  have hdist : exPC3.distance 0 = 1 := by
    rw [Particle.distance, hsq, Real.sqrt_one]
  have hHx : (exPC3.calc_innovation 0 exZ exR).Hx =
      [[-1, 0, 0, 0], [0, -1, 0, 0]] := by
    show observation_jacob_Hx (exPC3.square_distance 0) (exPC3.distance 0)
        (exPC3.lm_dx 0) (exPC3.lm_dy 0) = _
    rw [hsq, hdist, hdx, hdy, observation_jacob_Hx]
    norm_num
  refine ⟨hHx, ?_⟩
  rw [hHx]
  simp

/-- C3 (amended): for a tracked landmark the EKF correction computes the
range/bearing residual (bearing normalized), the Jacobians — with `Hx` a
2×4 matrix whose extra fourth column is zero, not the claimed 2×3 — forms
`S = Hlm⬝P⬝Hlmᵀ + R` and `K = P⬝Hlmᵀ⬝S⁻¹`, and updates the landmark mean to
`m + K⬝residual` and its covariance to `P - K⬝Hlm⬝P`. -/
theorem C3_ekf_correction (p : Particle) (z : Obs) (R : Mat2)
    (hlen : p.X.length = 3 + 2 * p.n_landmark)
    (hLP : p.LP.length = p.n_landmark)
    (hid : z.lm_id < p.n_landmark)
    (htracked : ¬ |p.X.getD (3 + 2 * z.lm_id) 0| < 0.01)
    (m : Vec2) (P : Mat2) (dx dy sq dist : ℝ) (residual : Vec2)
    (Hlm S K : Mat2)
    (hm : m = p.lm_state z.lm_id) (hP : P = p.lm_cov z.lm_id)
    (hdx : dx = m 0 - p.X.getD 0 0) (hdy : dy = m 1 - p.X.getD 1 0)
    (hsq : sq = dx * dx + dy * dy) (hdist : dist = Real.sqrt sq)
    (hresid : residual = ![z.d - dist, normalize (z.theta - atan2 dy dx)])
    (hHlm : Hlm = !![dx / dist, dy / dist; -dy / sq, dx / sq])
    (hS : S = Hlm * P * Hlm.transpose + R)
    (hK : K = P * Hlm.transpose * S⁻¹) :
    (p.update_one_landmark z R).lm_state z.lm_id = m + K.mulVec residual ∧
    (p.update_one_landmark z R).lm_cov z.lm_id = P - K * Hlm * P ∧
    (p.calc_innovation z.lm_id z R).Hx =
      [[-dx / dist, -dy / dist, 0, 0], [dy / sq, -dx / sq, 0, 0]] := by
  subst hK hS hHlm hresid hdist hsq hdy hdx hP hm
  have hcw_X : (p.compute_weight z).X = p.X := Particle.compute_weight_X p z
  have hcw_LP : (p.compute_weight z).LP = p.LP := Particle.compute_weight_LP p z
  have hcw_st : (p.compute_weight z).lm_state z.lm_id = p.lm_state z.lm_id := by
    simp [Particle.lm_state, hcw_X]
  have hcw_cov : (p.compute_weight z).lm_cov z.lm_id = p.lm_cov z.lm_id := by
    simp [Particle.lm_cov, hcw_LP]
  have hcw_inn : (p.compute_weight z).calc_innovation z.lm_id z R =
      p.calc_innovation z.lm_id z R := by
    simp [Particle.calc_innovation, Particle.lm_dx, Particle.lm_dy,
      Particle.square_distance, Particle.distance, Particle.lm_state,
      Particle.lm_cov, hcw_X, hcw_LP]
  have hcode : p.update_one_landmark z R =
      (p.compute_weight z).ekf_correct z R := by
    rw [Particle.update_one_landmark, if_neg htracked]
  rw [hcode]
  have e0 : ((p.compute_weight z).ekf_correct z R).X.getD (3 + 2 * z.lm_id) 0 =
      p.lm_state z.lm_id 0 +
        (p.lm_cov z.lm_id * (p.calc_innovation z.lm_id z R).Hlm.transpose *
          (p.calc_innovation z.lm_id z R).Slm⁻¹).mulVec
          (p.calc_innovation z.lm_id z R).residual 0 := by
    simp only [Particle.ekf_correct]
    rw [hcw_X, getD_set_ne (by omega), getD_set_self (by rw [hlen]; omega),
      hcw_st, hcw_cov, hcw_inn]
  have e1 : ((p.compute_weight z).ekf_correct z R).X.getD
      (3 + 2 * z.lm_id + 1) 0 =
      p.lm_state z.lm_id 1 +
        (p.lm_cov z.lm_id * (p.calc_innovation z.lm_id z R).Hlm.transpose *
          (p.calc_innovation z.lm_id z R).Slm⁻¹).mulVec
          (p.calc_innovation z.lm_id z R).residual 1 := by
    simp only [Particle.ekf_correct]
    rw [hcw_X, getD_set_self (by rw [List.length_set, hlen]; omega),
      hcw_st, hcw_cov, hcw_inn]
  refine ⟨?_, ?_, rfl⟩
  · funext i
    fin_cases i
    · show ((p.compute_weight z).ekf_correct z R).X.getD
        (3 + 2 * z.lm_id) 0 = _
      rw [e0]
      rfl
    · show ((p.compute_weight z).ekf_correct z R).X.getD
        (3 + 2 * z.lm_id + 1) 0 = _
      rw [e1]
      rfl
  · show ((p.compute_weight z).LP.set z.lm_id _).getD z.lm_id 0 = _
    rw [hcw_LP, getD_set_self (by rw [hLP]; exact hid), hcw_cov, hcw_inn]
    rfl

/-- C3 witness: the amended EKF-correction statement instantiated at the
tracked sample landmark, where dx = 1, dy = 0, sq = dist = 1 and
Hlm = I. -/
theorem C3_witness :
    (exPC3.update_one_landmark exZ exR).lm_state exZ.lm_id =
      ![1, 0] + ((1 : Mat2) * (!![1, 0; 0, 1] : Mat2).transpose *
        ((!![1, 0; 0, 1] : Mat2) * 1 * (!![1, 0; 0, 1] : Mat2).transpose
          + exR)⁻¹).mulVec
        ![exZ.d - 1, normalize (exZ.theta - atan2 0 1)] ∧
    (exPC3.update_one_landmark exZ exR).lm_cov exZ.lm_id =
      1 - (1 : Mat2) * (!![1, 0; 0, 1] : Mat2).transpose *
        ((!![1, 0; 0, 1] : Mat2) * 1 * (!![1, 0; 0, 1] : Mat2).transpose
          + exR)⁻¹ * !![1, 0; 0, 1] * 1 ∧
    (exPC3.calc_innovation exZ.lm_id exZ exR).Hx =
      [[-1 / 1, -0 / 1, 0, 0], [0 / 1, -1 / 1, 0, 0]] := by
  refine C3_ekf_correction exPC3 exZ exR (by norm_num [exPC3])
    (by norm_num [exPC3]) (by norm_num [exPC3, exZ])
    (by norm_num [exPC3, exZ]) ![1, 0] 1 1 0 1 1
    ![exZ.d - 1, normalize (exZ.theta - atan2 0 1)] !![1, 0; 0, 1] _ _
    ?_ ?_ ?_ ?_ (by norm_num) (by rw [Real.sqrt_one]) rfl ?_ rfl rfl
  · funext i
    fin_cases i <;> simp [Particle.lm_state, exPC3, exZ]
  · simp [Particle.lm_cov, exPC3, exZ]
  · norm_num [exPC3, exZ, Matrix.cons_val_zero]
  · norm_num [exPC3, exZ, Matrix.cons_val_one, Matrix.head_cons]
  · ext i j
    fin_cases i <;> fin_cases j <;> norm_num

theorem normalize_particles_length (ps : List Particle) :
    (normalize_particles ps).length = ps.length := by
  simp only [normalize_particles]
  split <;> simp

theorem normalize_particles_shape (ps : List Particle) :
    ∀ q ∈ normalize_particles ps, ∃ p ∈ ps,
      q.X = p.X ∧ q.LP = p.LP ∧ q.n_landmark = p.n_landmark := by
  intro q hq
  simp only [normalize_particles] at hq
  split at hq <;>
  · rcases List.mem_map.mp hq with ⟨p, hp, rfl⟩
    exact ⟨p, hp, rfl, rfl, rfl⟩

theorem normalize_particles_of_sum_one {ps : List Particle}
    (hsum : (ps.map Particle.weight).sum = 1) :
    normalize_particles ps = ps := by
  simp only [normalize_particles]
  rw [hsum, if_neg one_ne_zero]
  have hp : ∀ p : Particle,
      ({ p with weight := p.weight * (1 / (1:ℝ)) } : Particle) = p := by
    intro p
    cases p
    simp
  rw [List.map_congr_left (fun a _ => hp a)]
  exact List.map_id ps

theorem select_index_lt_length {wcum : List ℝ} {r : ℝ}
    (h : ∃ c ∈ wcum, r ≤ c) : select_index wcum r < wcum.length := by
  induction wcum with
  | nil =>
    rcases h with ⟨c, hc, _⟩
    exact absurd hc (List.not_mem_nil c)
  | cons a t ih =>
    simp only [select_index]
    split
    · rename_i hlt
      have ht : ∃ c ∈ t, r ≤ c := by
        rcases h with ⟨c, hc, hrc⟩
        rcases List.mem_cons.mp hc with rfl | hc2
        · exact absurd hrc (by linarith)
        · exact ⟨c, hc2, hrc⟩
      simpa using ih ht
    · simp

theorem wcum_of_length (ps : List Particle) :
    (wcum_of ps).length = ps.length := by
  simp [wcum_of, List.length_scanl]

theorem wcum_of_getD_last (ps : List Particle) (hne : ps ≠ []) :
    (wcum_of ps).getD (ps.length - 1) 0 = 1 := by
  have hpos : 0 < ps.length := List.length_pos.mpr hne
  rw [wcum_of, getD_set_self]
  simp only [List.length_tail, List.length_scanl, List.length_map]
  omega

/-- C7: `resample` first normalizes the weights and computes
`N_eff = 1/(Σ wᵢ² + 1e-30)`; when `N_eff ≥ count/2` it returns the
(normalized) particles with no replacement — in particular literally
unchanged if they were already normalized — and only when
`N_eff < count/2` does it rebuild the set through the cumulative-weight
draw. -/
theorem C7_resample_gate (draws : ℕ → ℝ) (ps : List Particle)
    (_hne : ps ≠ []) :
    Neff ps = 1 / ((ps.map (fun p => p.weight * p.weight)).sum + 1e-30) ∧
    ((ps.length : ℝ) / 2 ≤ Neff (normalize_particles ps) →
      resample draws ps = normalize_particles ps) ∧
    ((ps.map Particle.weight).sum = 1 →
      (ps.length : ℝ) / 2 ≤ Neff (normalize_particles ps) →
      resample draws ps = ps) ∧
    (Neff (normalize_particles ps) < (ps.length : ℝ) / 2 →
      resample draws ps =
        normalize_particles
          (((List.range ps.length).map (fun i =>
            select_index (wcum_of (normalize_particles ps)) (draws i))).map
            (fun ind =>
              ((normalize_particles ps).getD ind default).make_copy))) := by
  have hlen := normalize_particles_length ps
  refine ⟨rfl, ?_, ?_, ?_⟩
  · intro hge
    simp only [resample]
    rw [if_neg (by rw [hlen]; exact not_lt.mpr hge)]
  · intro hsum hge
    have hid := normalize_particles_of_sum_one hsum
    rw [hid] at hge
    simp only [resample]
    rw [hid, if_neg (not_lt.mpr hge)]
  · intro hlt
    simp only [resample]
    rw [if_pos (by rw [hlen]; exact hlt), hlen]

/-- C7 witness: a singleton particle set of weight 1 is already
well-conditioned (`N_eff ≈ 1 ≥ 1/2`), so `resample` performs no
replacement. -/
theorem C7_witness :
    resample exDraws [exW1] = [exW1] := by
  refine (C7_resample_gate exDraws [exW1] (by simp)).2.2.1
    (by norm_num [exW1]) ?_
  rw [normalize_particles_of_sum_one (by norm_num [exW1])]
  norm_num [Neff, exW1]

/-- C8 (amended): `resample` never changes the number of particles, and
every output particle carries the augmented state, landmark covariances and
landmark count of some input particle (the deep copy made by `make_copy`);
its WEIGHT, however, is re-normalized across the new set rather than
duplicated. -/
theorem C8_resample_membership (draws : ℕ → ℝ) (ps : List Particle)
    (hne : ps ≠ []) (hdraws : ∀ i, draws i ≤ 1) :
    (resample draws ps).length = ps.length ∧
    ∀ q ∈ resample draws ps, ∃ p ∈ ps,
      q.X = p.X ∧ q.LP = p.LP ∧ q.n_landmark = p.n_landmark := by
  have hlen := normalize_particles_length ps
  have hnpne : normalize_particles ps ≠ [] := by
    intro hcontra
    apply hne
    rw [← List.length_eq_zero, ← hlen, hcontra]
    rfl
  simp only [resample]
  split
  · constructor
    · simp [normalize_particles_length, hlen]
    · intro q hq
      obtain ⟨c, hc, hcX, hcLP, hcn⟩ := normalize_particles_shape _ q hq
      obtain ⟨ind, hind, rfl⟩ := List.mem_map.mp hc
      obtain ⟨i, _hi, rfl⟩ := List.mem_map.mp hind
      have hwlen : (wcum_of (normalize_particles ps)).length = ps.length := by
        rw [wcum_of_length, hlen]
      have hsel : select_index (wcum_of (normalize_particles ps)) (draws i) <
          (normalize_particles ps).length := by
        rw [hlen, ← hwlen]
        apply select_index_lt_length
        refine ⟨(wcum_of (normalize_particles ps)).getD
          ((normalize_particles ps).length - 1) 0, ?_, ?_⟩
        · have hb : (normalize_particles ps).length - 1 <
              (wcum_of (normalize_particles ps)).length := by
            rw [hwlen, hlen]
            have := List.length_pos.mpr hne
            omega
          rw [List.getD_eq_getElem _ _ hb]
          exact List.getElem_mem hb
        · rw [wcum_of_getD_last _ hnpne]
          exact hdraws i
      have hmem2 : (normalize_particles ps).getD
          (select_index (wcum_of (normalize_particles ps)) (draws i)) default
          ∈ normalize_particles ps := by
        rw [List.getD_eq_getElem _ _ hsel]
        exact List.getElem_mem hsel
      obtain ⟨p, hp, h1, h2, h3⟩ := normalize_particles_shape ps _ hmem2
      rw [Particle.make_copy_eq] at hcX hcLP hcn
      exact ⟨p, hp, hcX.trans h1, hcLP.trans h2, hcn.trans h3⟩
  · exact ⟨hlen, normalize_particles_shape ps⟩

/-- C8 witness: the skewed three-particle sample set keeps its count of 3
through `resample`. -/
theorem C8_witness :
    (resample exDraws exSkew).length = exSkew.length :=
  (C8_resample_membership exDraws exSkew (by simp [exSkew])
    (fun i => by norm_num [exDraws])).1

/-- C8 (counterexample): with normalized input weights (1, 0, 0) the
effective sample size is about 1 < 3/2, so replacement occurs; all three
draws of 1/2 select the weight-1 particle, and the final re-normalization
gives every copy weight 1/3 — a value carried by NO input particle, so the
output particles are not deep copies "with weight duplicated" of input
particles. -/
theorem C8_counterexample :
    ¬ (∀ q ∈ resample exDraws exSkew, ∃ p ∈ exSkew, q = p.make_copy) := by
  have hnorm : normalize_particles exSkew = exSkew :=
    normalize_particles_of_sum_one (by norm_num [exSkew, exW1, exW0])
  have hcond : Neff exSkew < ((exSkew.length : ℕ) : ℝ) / 2 := by
    norm_num [Neff, exSkew, exW1, exW0]
  have hwcum : wcum_of exSkew = [1, 1, 1] := by
    simp only [wcum_of]
    norm_num [exSkew, exW1, exW0, List.scanl]
  have hsel : select_index [(1 : ℝ), 1, 1] (1 / 2) = 0 := by
    simp only [select_index]
    rw [if_neg (by norm_num)]
  have hfinal : resample exDraws exSkew =
      [⟨0, [], [], 1 * (1 / 3)⟩, ⟨0, [], [], 1 * (1 / 3)⟩,
       ⟨0, [], [], 1 * (1 / 3)⟩] := by
    simp only [resample]
    rw [hnorm, if_pos hcond, hwcum]
    rw [show List.range exSkew.length = [0, 1, 2] from rfl]
    simp only [List.map_cons, List.map_nil, exDraws]
    rw [hsel]
    simp only [exSkew, List.getD_cons_zero, Particle.make_copy_eq]
    rw [normalize_particles]
    rw [show ([exW1, exW1, exW1].map Particle.weight).sum = 3 by
      norm_num [exW1]]
    rw [if_neg (by norm_num)]
    simp only [List.map_cons, List.map_nil]
    norm_num [exW1]
  intro hall
  have hq : (⟨0, [], [], 1 * (1 / 3)⟩ : Particle) ∈ resample exDraws exSkew := by
    rw [hfinal]
    exact List.mem_cons_self _ _
  obtain ⟨p, hp, heq⟩ := hall _ hq
  rw [Particle.make_copy_eq] at heq
  have hw := congrArg Particle.weight heq
  fin_cases hp <;> norm_num [exW1, exW0] at hw

end FastSlam

end
